import Mathlib

/-!
Verification of the LZW decoder in `src/compress/lzw/reader.ts` (a
TypeScript port of Go's `compress/lzw` reader).

Shallow embedding notes:

* The underlying `io.ByteReader` is modelled by `ByteSrc`: a list of
  pending bytes plus the error string the source reports once the bytes
  are exhausted (`"EOF"` for a cleanly ended source, anything else for an
  I/O failure).  Errors are compared by message in the TypeScript code
  (`err.message == IOErrors.EOF`), so an error is modelled as a `String`.

* JavaScript numbers under the bitwise operators `|`, `<<`, `>>`, `&`
  behave as 32-bit two's-complement integers.  In the LSB path the
  accumulator `bits` provably never exceeds 2^19 (bytes are OR'd in at
  positions below 12+8), so the LSB extractor is embedded over `Nat`,
  where the JS operators agree with `Nat.lor`/`Nat.land`/shifts.
  In the MSB path bytes are OR'd in at position `24 - nBits`, so the
  int32 sign bit can be set and JS `>>` sign-extends; the MSB extractor
  is therefore embedded separately over `Int` with explicit 32-bit
  two's-complement semantics (`jsOr32`, `jsShl32`, `jsSar32`).

* The decoder state machine (`decode`, `Read`, `Close`) is embedded for
  the `LSB` order (`read()` dispatching to `readLSB`); the `decode` loop
  itself never inspects the order.  While-loops are embedded as
  fuel-indexed recursions; the fuels used inside `decodeStep` are
  sufficient for every reachable state (the prefix chains are strictly
  decreasing, and the bit-filling loop gains 8 bits per iteration), so
  on those states the embedding computes exactly what the source does.
-/

/-- Constant `maxWidth = 12` from reader.ts. -/
def maxWidth : Nat := 12

/-- Constant `decoderInvalidCode = 0xffff` from reader.ts. -/
def decoderInvalidCode : Nat := 0xffff

/-- Constant `flushBuffer = 1 << maxWidth` from reader.ts. -/
def flushBuffer : Nat := 2 ^ maxWidth

/-- String of `IOErrors.EOF` from io/index.ts. -/
def eofErr : String := "EOF"

/-- String of `IOErrors.UnexpectedEOF` from io/index.ts. -/
def unexpectedEOFErr : String := "unexpected EOF"

/-- Message of the error thrown on a code greater than `hi` in reader.ts. -/
def invalidCodeErr : String := "lzw: invalid code"

/-- Message of the error stored by `LZWReader.Close` in reader.ts. -/
def closedErr : String := "lzw: reader/writer is closed"

/-- Model of the underlying `io.ByteReader`: the bytes still to be
delivered, then the error reported once they are exhausted (`"EOF"` for
a cleanly ended source, e.g. the `Buffer` class of core/buffer.ts). -/
structure ByteSrc where
  data : List Nat
  endErr : String
deriving Repr, DecidableEq

/-- Model of `ReadByte()`: returns the next byte, or `(0, err)` without
consuming anything once the source is exhausted. -/
def ByteSrc.ReadByte : ByteSrc → Nat × Option String × ByteSrc
  | ⟨[], e⟩ => (0, some e, ⟨[], e⟩)
  | ⟨x :: xs, e⟩ => (x, none, ⟨xs, e⟩)

/-- State of the `LZWReader` class (reader.ts), for the LSB order.  The
`prefix` field of the class is called `pfx` here (`prefix` is a Lean
keyword).  The fixed-size JS arrays `suffix` (length `1 << maxWidth`),
`prefix` (length `1 << maxWidth`) and `output` (length `2 * (1 << maxWidth)`)
are lists of those lengths; `err` is `none` for the `undefined` error. -/
structure LZWReader where
  r : ByteSrc
  bits : Nat
  nBits : Nat
  width : Nat
  litWidth : Nat
  clear : Nat
  eof : Nat
  hi : Nat
  overflow : Nat
  last : Nat
  err : Option String
  suffix : List Nat
  pfx : List Nat
  output : List Nat
  o : Nat
  toRead : List Nat
deriving Repr, DecidableEq

/-- Field assignments of the `LZWReader` constructor (reader.ts), after
the `litWidth` range check has passed. -/
def initLZWReader (src : ByteSrc) (litWidth : Nat) : LZWReader where
  r := src
  bits := 0
  nBits := 0
  width := 1 + litWidth
  litWidth := litWidth
  clear := 2 ^ litWidth
  eof := 2 ^ litWidth + 1
  hi := 2 ^ litWidth + 1
  overflow := 2 ^ (1 + litWidth)
  last := decoderInvalidCode
  err := none
  suffix := List.replicate (2 ^ maxWidth) 0
  pfx := List.replicate (2 ^ maxWidth) 0
  output := List.replicate (2 * 2 ^ maxWidth) 0
  o := 0
  toRead := []

/-- Model of the `LZWReader` constructor: throws (`none`) when
`litWidth < 2 || 8 < litWidth`, otherwise the initial state. -/
def newLZWReader (src : ByteSrc) (litWidth : Nat) : Option LZWReader :=
  if litWidth < 2 ∨ 8 < litWidth then none
  else some (initLZWReader src litWidth)

/-- Loop `while (nBits < width)` of `readLSB`: pull one byte, OR it in at
position `nBits`, add 8 to `nBits`; stop and report any source error.
The fuel is the number of remaining iterations allowed; `readLSB` passes
`width`, which is sufficient because each iteration adds 8 to `nBits`
(so at most `⌈width/8⌉ ≤ width` iterations run). -/
def fillBitsLSB : Nat → LZWReader → LZWReader × Option String
  | 0, s => (s, none)
  | fuel + 1, s =>
    if s.nBits < s.width then
      match s.r.ReadByte with
      | (_, some e, r') => ({ s with r := r' }, some e)
      | (x, none, r') =>
          fillBitsLSB fuel
            { s with r := r', bits := s.bits ||| (x <<< s.nBits), nBits := s.nBits + 8 }
    else (s, none)

/-- Model of `readLSB`: fill the accumulator to at least `width` bits,
then return the low `width` bits and shift them out. -/
def readLSB (s : LZWReader) : Nat × Option String × LZWReader :=
  match fillBitsLSB s.width s with
  | (s', some e) => (0, some e, s')
  | (s', none) =>
      let code := s'.bits &&& (2 ^ s'.width - 1)
      (code, none, { s' with bits := s'.bits >>> s'.width, nBits := s'.nBits - s'.width })

/-- Loop `c = this.last; while (c >= this.clear) c = this.prefix[c]` of the
`code == hi` special case in `decode`: walk the prefix chain down to the
literal at its head.  `decodeStep` passes fuel `c + 1`, sufficient because
in every reachable state `pfx` entries at or above `clear` are strictly
decreasing. -/
def chainHead (fuel : Nat) (pfx : List Nat) (cl : Nat) (c : Nat) : Nat :=
  match fuel with
  | 0 => c
  | fuel + 1 => if c < cl then c else chainHead fuel pfx cl (pfx.getD c 0)

/-- Loop `while (c >= this.clear) { output[i] = suffix[c]; i--; c = prefix[c] }`
of `decode`: write the suffix bytes right-to-left at indices `i, i-1, ...`
of `out`, returning the updated buffer, the final index and the final
(literal) code.  Same fuel discipline as `chainHead`. -/
def chainWalk (fuel : Nat) (sfx pfx : List Nat) (cl : Nat) :
    Nat → Nat → List Nat → List Nat × Nat × Nat
  | c, i, out =>
    match fuel with
    | 0 => (out, i, c)
    | fuel + 1 =>
      if c < cl then (out, i, c)
      else chainWalk fuel sfx pfx cl (pfx.getD c 0) (i - 1) (out.set i (sfx.getD c 0))

/-- Loop copying `srcArray` into `this.output` starting at index `o`
(the JS expansion of Go's `copy(r.output[r.o:], r.output[i:])`). -/
def listBlit (dst : List Nat) (o : Nat) : List Nat → List Nat
  | [] => dst
  | v :: vs => listBlit (dst.set o v) (o + 1) vs

/-- Body of the `code <= hi` branch of `decode` (reader.ts lines 337-370),
up to but excluding the shared trailer: expand the code into the tail of
the scratch buffer, copy the expansion to the write cursor, and if `last`
is valid seal `suffix[hi]`/`prefix[hi]`.  The state passed in is the one
left by `read()`. -/
def expandStep (s : LZWReader) (code : Nat) : LZWReader :=
  let i0 := s.output.length - 1
  let step1 : List Nat × Nat × Nat :=
    if code = s.hi ∧ s.last ≠ decoderInvalidCode then
      let h := chainHead (s.last + 1) s.pfx s.clear s.last
      (s.output.set i0 h, i0 - 1, s.last)
    else
      (s.output, i0, code)
  let out1 := step1.1
  let i1 := step1.2.1
  let c1 := step1.2.2
  let step2 := chainWalk (c1 + 1) s.suffix s.pfx s.clear c1 i1 out1
  let out2 := step2.1
  let i2 := step2.2.1
  let c2 := step2.2.2
  let out3 := out2.set i2 c2
  let srcArray := out3.drop i2
  let out4 := listBlit out3 s.o srcArray
  let s2 := { s with output := out4, o := s.o + srcArray.length }
  if s2.last ≠ decoderInvalidCode then
    { s2 with suffix := s2.suffix.set s2.hi c2, pfx := s2.pfx.set s2.hi s2.last }
  else s2

/-- Body of the `code < clear` branch of `decode` (reader.ts lines 318-327):
append the literal byte, and if `last` is valid record the pending
expansion of code `hi`. -/
def litStep (s : LZWReader) (code : Nat) : LZWReader :=
  let s2 := { s with output := s.output.set s.o code, o := s.o + 1 }
  if s2.last ≠ decoderInvalidCode then
    { s2 with suffix := s2.suffix.set s2.hi code, pfx := s2.pfx.set s2.hi s2.last }
  else s2

/-- Body of the `code == clear` branch of `decode` (reader.ts lines 328-333). -/
def clearStep (s : LZWReader) : LZWReader :=
  { s with
    width := 1 + s.litWidth
    hi := s.eof
    overflow := 2 ^ (1 + s.litWidth)
    last := decoderInvalidCode }

/-- Result of one iteration of the `decode` loop body: continue looping,
break out of the loop, or hit the `throw new Error("unreachable")`. -/
inductive StepRes where
  | next : LZWReader → StepRes
  | brk : LZWReader → StepRes
  | panic : StepRes
deriving Repr, DecidableEq

/-- Code shared by every non-clear, non-EOF, non-error code at the end of
a `decode` iteration (reader.ts lines 377-399): set `last`, bump `hi`,
grow the width or roll back at `maxWidth`, and break once the output
cursor has reached `flushBuffer`. -/
def trailer (s : LZWReader) (code : Nat) : StepRes :=
  let s1 := { s with last := code, hi := s.hi + 1 }
  if s1.hi ≥ s1.overflow then
    if s1.hi > s1.overflow then .panic
    else if s1.width = maxWidth then
      let s2 := { s1 with last := decoderInvalidCode, hi := s1.hi - 1 }
      if s2.o ≥ flushBuffer then .brk s2 else .next s2
    else
      let s2 := { s1 with width := s1.width + 1, overflow := 2 ^ (s1.width + 1) }
      if s2.o ≥ flushBuffer then .brk s2 else .next s2
  else
    if s1.o ≥ flushBuffer then .brk s1 else .next s1

/-- One iteration of the `loop: while(true)` body of `decode`
(reader.ts lines 305-399), for the LSB order. -/
def decodeStep (s : LZWReader) : StepRes :=
  match readLSB s with
  | (_, some e, s1) =>
      let e' := if e = eofErr then unexpectedEOFErr else e
      .brk { s1 with err := some e' }
  | (code, none, s1) =>
      if code < s1.clear then
        trailer (litStep s1 code) code
      else if code = s1.clear then
        .next (clearStep s1)
      else if code = s1.eof then
        .brk { s1 with err := some eofErr }
      else if code ≤ s1.hi then
        trailer (expandStep s1 code) code
      else
        .brk { s1 with err := some invalidCodeErr }

/-- Iterate `decodeStep` until a break (fuel-indexed; the source loop is
unbounded).  `none` models the `throw new Error("unreachable")`. -/
def decodeLoop : Nat → LZWReader → Option LZWReader
  | 0, s => some s
  | fuel + 1, s =>
    match decodeStep s with
    | .brk s' => some s'
    | .panic => none
    | .next s' => decodeLoop fuel s'

/-- Model of `decode()`: run the loop, then flush pending output
(`toRead = output.slice(0, o); o = 0`). -/
def decodeL (fuel : Nat) (s : LZWReader) : Option LZWReader :=
  (decodeLoop fuel s).map fun s' => { s' with toRead := s'.output.take s'.o, o := 0 }

/-- Model of `Read(b)`: `rfuel` bounds the iterations of the outer
`while(true)` (`none` on exhaustion), `dfuel` is the fuel handed to the
decode loop, `blen` is the length of the destination buffer `b`.  Returns
the bytes copied into `b` (whose count is the returned `n`), the
returned error, and the updated state.  `uint8Copy` copies
`min blen toRead.length` bytes and `toRead` is advanced by that count. -/
def ReadLZW (rfuel dfuel : Nat) (s : LZWReader) (blen : Nat) :
    Option (List Nat × Option String × LZWReader) :=
  match rfuel with
  | 0 => none
  | rfuel + 1 =>
    if s.toRead.length > 0 then
      let n := min blen s.toRead.length
      some (s.toRead.take n, none, { s with toRead := s.toRead.drop n })
    else
      match s.err with
      | some e => some ([], some e, s)
      | none =>
        match decodeL dfuel s with
        | none => none
        | some s' => ReadLZW rfuel dfuel s' blen

/-- Model of `Close()`: store the fixed closed error and return `null`. -/
def CloseLZW (s : LZWReader) : Option String × LZWReader :=
  (none, { s with err := some closedErr })

/-- Unsigned 32-bit reinterpretation of an integer (JS `ToUint32`). -/
def toU32 (a : Int) : Nat := (a.emod (2 ^ 32)).toNat

/-- Signed 32-bit value with the given unsigned 32-bit representation
(JS `ToInt32`). -/
def ofU32 (n : Nat) : Int :=
  if n % 2 ^ 32 < 2 ^ 31 then ((n % 2 ^ 32 : Nat) : Int)
  else ((n % 2 ^ 32 : Nat) : Int) - 2 ^ 32

/-- JS bitwise OR `a | b` on numbers: both operands convert to int32. -/
def jsOr32 (a b : Int) : Int := ofU32 (Nat.lor (toU32 a) (toU32 b))

/-- JS left shift `a << k` on numbers, for a shift count already in
`[0, 32)`: int32 result, overflow wraps. -/
def jsShl32 (a : Int) (k : Nat) : Int := ofU32 ((toU32 a) <<< k)

/-- JS signed right shift `a >> k` on numbers, for a shift count already
in `[0, 32)`: the int32 value of `a` is shifted arithmetically, i.e.
floor-divided by `2 ^ k`, preserving the sign. -/
def jsSar32 (a : Int) (k : Nat) : Int := (ofU32 (toU32 a)).fdiv (2 ^ k)

/-- The fields of `LZWReader` that `readMSB` uses.  `bits` is an `Int`
because the JS operators in `readMSB` work on int32 values and the OR at
position `24 - nBits` can set the sign bit (unlike the LSB path). -/
structure MSBReader where
  r : ByteSrc
  bits : Int
  nBits : Nat
  width : Nat
deriving Repr, DecidableEq

/-- Loop `while (nBits < width)` of `readMSB`: pull one byte and OR it in
with `bits |= x << (24 - nBits)` (JS int32 semantics).  Fuel as in
`fillBitsLSB`. -/
def fillBitsMSB : Nat → MSBReader → MSBReader × Option String
  | 0, s => (s, none)
  | fuel + 1, s =>
    if s.nBits < s.width then
      match s.r.ReadByte with
      | (_, some e, r') => ({ s with r := r' }, some e)
      | (x, none, r') =>
          fillBitsMSB fuel
            { s with r := r'
                     bits := jsOr32 s.bits (jsShl32 (x : Int) (24 - s.nBits))
                     nBits := s.nBits + 8 }
    else (s, none)

/-- Model of `readMSB` with JS number semantics: fill the accumulator,
then `code = bits >> (32 - width)` (signed shift), `bits <<= width`,
`nBits -= width`. -/
def readMSB (s : MSBReader) : Int × Option String × MSBReader :=
  match fillBitsMSB s.width s with
  | (s', some e) => (0, some e, s')
  | (s', none) =>
      let code := jsSar32 s'.bits (32 - s'.width)
      (code, none, { s' with bits := jsShl32 s'.bits s'.width, nBits := s'.nBits - s'.width })

/-- Value `readMSB` would return were `bits` a uint32 as in the Go source
it was ported from (logical shift of the high `width` bits): the claimed
behaviour. -/
def readMSBSpecCode (s : MSBReader) : Nat :=
  match fillBitsMSB s.width s with
  | (_, some _) => 0
  | (s', none) => toU32 s'.bits >>> (32 - s'.width)

/-- State carried by a non-panicking step result. -/
def stepState : StepRes → Option LZWReader
  | .next s => some s
  | .brk s => some s
  | .panic => none

/-- Expansion of a code through the prefix/suffix table, as described in
the specification: a literal expands to itself, and a table code expands
to the expansion of its prefix followed by its suffix byte
(fuel-indexed; fuel `c + 1` is exact whenever the table entries at or
above `cl` are strictly decreasing). -/
def expansion (fuel : Nat) (sfx pfx : List Nat) (cl : Nat) (c : Nat) : List Nat :=
  match fuel with
  | 0 => []
  | fuel + 1 =>
    if c < cl then [c]
    else expansion fuel sfx pfx cl (pfx.getD c 0) ++ [sfx.getD c 0]

/-! Helper lemmas. -/

theorem fillBitsLSB_state (fuel : Nat) (s : LZWReader) :
    ∃ b n r, (fillBitsLSB fuel s).1 = { s with bits := b, nBits := n, r := r } := by
  induction fuel generalizing s with
  | zero => exact ⟨s.bits, s.nBits, s.r, rfl⟩
  | succ k ih =>
    by_cases h : s.nBits < s.width
    · rcases hrb : s.r.ReadByte with ⟨x, e, r'⟩
      cases e with
      | some e =>
        exact ⟨s.bits, s.nBits, r', by simp [fillBitsLSB, h, hrb]⟩
      | none =>
        obtain ⟨b, n, r, hb⟩ :=
          ih { s with r := r', bits := s.bits ||| (x <<< s.nBits), nBits := s.nBits + 8 }
        exact ⟨b, n, r, by simpa [fillBitsLSB, h, hrb] using hb⟩
    · exact ⟨s.bits, s.nBits, s.r, by simp [fillBitsLSB, h]⟩

theorem readLSB_state (s : LZWReader) :
    ∃ b n r, (readLSB s).2.2 = { s with bits := b, nBits := n, r := r } := by
  obtain ⟨b, n, r, h⟩ := fillBitsLSB_state s.width s
  rcases hf : fillBitsLSB s.width s with ⟨s', e⟩
  have h' : s' = { s with bits := b, nBits := n, r := r } := by rw [hf] at h; exact h
  cases e with
  | some e =>
      refine ⟨b, n, r, ?_⟩
      simp only [readLSB, hf]
      exact h'
  | none =>
      refine ⟨s'.bits >>> s'.width, s'.nBits - s'.width, r, ?_⟩
      simp only [readLSB, hf]
      rw [h']

theorem readLSB_noGather (s : LZWReader) (h : s.width ≤ s.nBits) :
    (readLSB s).2.1 = none := by
  have h0 : fillBitsLSB s.width s = (s, none) := by
    cases hw : s.width with
    | zero => rfl
    | succ k => simp [fillBitsLSB, ← hw, Nat.not_lt.mpr h]
  simp [readLSB, h0]

theorem decodeStep_readErr (s : LZWReader) (code : Nat) (e : String) (s1 : LZWReader)
    (h : readLSB s = (code, some e, s1)) :
    decodeStep s = .brk { s1 with err := some (if e = eofErr then unexpectedEOFErr else e) } := by
  unfold decodeStep
  rw [h]

theorem decodeStep_literal (s : LZWReader) (code : Nat) (s1 : LZWReader)
    (h : readLSB s = (code, none, s1)) (hc : code < s1.clear) :
    decodeStep s = trailer (litStep s1 code) code := by
  unfold decodeStep
  rw [h]
  simp [hc]

theorem decodeStep_clear (s : LZWReader) (code : Nat) (s1 : LZWReader)
    (h : readLSB s = (code, none, s1)) (hc : code = s1.clear) :
    decodeStep s = .next (clearStep s1) := by
  unfold decodeStep
  rw [h]
  simp [hc]

theorem decodeStep_eofCode (s : LZWReader) (code : Nat) (s1 : LZWReader)
    (h : readLSB s = (code, none, s1)) (hce : s1.clear < s1.eof) (hc : code = s1.eof) :
    decodeStep s = .brk { s1 with err := some eofErr } := by
  have h1 : ¬ s1.eof < s1.clear := by omega
  have h2 : ¬ s1.eof = s1.clear := by omega
  unfold decodeStep
  rw [h]
  simp [hc, h1, h2]

theorem decodeStep_expand (s : LZWReader) (code : Nat) (s1 : LZWReader)
    (h : readLSB s = (code, none, s1)) (hce : s1.clear < s1.eof)
    (hlo : s1.eof < code) (hhi : code ≤ s1.hi) :
    decodeStep s = trailer (expandStep s1 code) code := by
  have h1 : ¬ code < s1.clear := by omega
  have h2 : ¬ code = s1.clear := by omega
  have h3 : ¬ code = s1.eof := by omega
  unfold decodeStep
  rw [h]
  simp [h1, h2, h3, hhi]

theorem decodeStep_invalid (s : LZWReader) (code : Nat) (s1 : LZWReader)
    (h : readLSB s = (code, none, s1)) (h1 : ¬ code < s1.clear)
    (h2 : ¬ code = s1.clear) (h3 : ¬ code = s1.eof) (h4 : ¬ code ≤ s1.hi) :
    decodeStep s = .brk { s1 with err := some invalidCodeErr } := by
  unfold decodeStep
  rw [h]
  simp [h1, h2, h3, h4]

theorem ReadLZW_pending (rfuel dfuel : Nat) (s : LZWReader) (blen : Nat)
    (h : s.toRead ≠ []) :
    ReadLZW (rfuel + 1) dfuel s blen =
      some (s.toRead.take (min blen s.toRead.length), none,
            { s with toRead := s.toRead.drop (min blen s.toRead.length) }) := by
  have hl : s.toRead.length > 0 := List.length_pos.mpr h
  simp [ReadLZW, hl]

theorem ReadLZW_stickyErr (rfuel dfuel : Nat) (s : LZWReader) (blen : Nat) (e : String)
    (ht : s.toRead = []) (he : s.err = some e) :
    ReadLZW (rfuel + 1) dfuel s blen = some ([], some e, s) := by
  simp [ReadLZW, ht, he]

/-- The decoder's documented invariant (comment block of reader.ts lines
166-176 plus the constructor's guarantees): `hi < overflow`,
`overflow = 2 ^ width`, and the widths and control codes are consistent. -/
def InvLZW (s : LZWReader) : Prop :=
  s.clear = 2 ^ s.litWidth ∧ s.eof = s.clear + 1 ∧ 2 ≤ s.litWidth ∧ s.litWidth ≤ 8 ∧
  1 + s.litWidth ≤ s.width ∧ s.width ≤ maxWidth ∧ s.overflow = 2 ^ s.width ∧
  s.hi < s.overflow

instance (s : LZWReader) : Decidable (InvLZW s) := by
  unfold InvLZW
  infer_instance

theorem two_pow_succ_eq (l : Nat) : 2 ^ (1 + l) = 2 * 2 ^ l := by
  rw [Nat.add_comm, pow_succ]
  ring

theorem InvLZW_init (src : ByteSrc) (lw : Nat) (h2 : 2 ≤ lw) (h8 : lw ≤ 8) :
    InvLZW (initLZWReader src lw) := by
  have h4 : 4 ≤ 2 ^ lw := by
    calc 4 = 2 ^ 2 := by norm_num
    _ ≤ 2 ^ lw := Nat.pow_le_pow_right (by norm_num) h2
  have hp := two_pow_succ_eq lw
  refine ⟨rfl, rfl, h2, h8, le_refl _, ?_, rfl, ?_⟩
  · show 1 + lw ≤ maxWidth
    unfold maxWidth
    omega
  · show 2 ^ lw + 1 < 2 ^ (1 + lw)
    omega

theorem InvLZW_readLSB (s : LZWReader) (h : InvLZW s) : InvLZW (readLSB s).2.2 := by
  obtain ⟨b, n, r, hs⟩ := readLSB_state s
  rw [hs]
  exact h

theorem InvLZW_litStep (s : LZWReader) (code : Nat) (h : InvLZW s) :
    InvLZW (litStep s code) := by
  simp only [litStep]
  split
  · exact h
  · exact h

theorem InvLZW_expandStep (s : LZWReader) (code : Nat) (h : InvLZW s) :
    InvLZW (expandStep s code) := by
  simp only [expandStep]
  split
  · exact h
  · exact h

theorem InvLZW_clearStep (s : LZWReader) (h : InvLZW s) : InvLZW (clearStep s) := by
  obtain ⟨hc, he, h2, h8, hw1, hw2, hov, hhi⟩ := h
  have h4 : 4 ≤ 2 ^ s.litWidth := by
    calc 4 = 2 ^ 2 := by norm_num
    _ ≤ 2 ^ s.litWidth := Nat.pow_le_pow_right (by norm_num) h2
  have hp := two_pow_succ_eq s.litWidth
  exact ⟨hc, he, h2, h8, le_refl _, by unfold maxWidth; show 1 + s.litWidth ≤ 12; omega,
    rfl, by show s.eof < 2 ^ (1 + s.litWidth); omega⟩

theorem trailer_state_lt (s : LZWReader) (code : Nat) (h : s.hi + 1 < s.overflow) :
    trailer s code = (if s.o ≥ flushBuffer
      then StepRes.brk { s with last := code, hi := s.hi + 1 }
      else StepRes.next { s with last := code, hi := s.hi + 1 }) := by
  have h1 : ¬ s.hi + 1 ≥ s.overflow := by omega
  simp only [trailer, h1, if_false]

theorem trailer_state_grow (s : LZWReader) (code : Nat)
    (he : s.hi + 1 = s.overflow) (hw : s.width ≠ maxWidth) :
    trailer s code = (if s.o ≥ flushBuffer
      then StepRes.brk { s with last := code, hi := s.hi + 1,
                                width := s.width + 1, overflow := 2 ^ (s.width + 1) }
      else StepRes.next { s with last := code, hi := s.hi + 1,
                                 width := s.width + 1, overflow := 2 ^ (s.width + 1) }) := by
  have h1 : s.hi + 1 ≥ s.overflow := by omega
  have h2 : ¬ s.hi + 1 > s.overflow := by omega
  simp only [trailer, h1, if_true, h2, if_false, hw]

theorem trailer_state_full (s : LZWReader) (code : Nat)
    (he : s.hi + 1 = s.overflow) (hw : s.width = maxWidth) :
    trailer s code = (if s.o ≥ flushBuffer
      then StepRes.brk { s with last := decoderInvalidCode, hi := s.hi }
      else StepRes.next { s with last := decoderInvalidCode, hi := s.hi }) := by
  have h1 : s.hi + 1 ≥ s.overflow := by omega
  have h2 : ¬ s.hi + 1 > s.overflow := by omega
  simp only [trailer, h1, if_true, h2, if_false, hw, if_pos rfl, Nat.add_sub_cancel]

theorem InvLZW_trailer (s : LZWReader) (code : Nat) (h : InvLZW s) :
    trailer s code ≠ .panic ∧ ∀ s', stepState (trailer s code) = some s' → InvLZW s' := by
  obtain ⟨hc, he, h2, h8, hw1, hw2, hov, hhi⟩ := h
  rcases Nat.lt_or_ge (s.hi + 1) s.overflow with hlt | hge
  · rw [trailer_state_lt s code hlt]
    constructor
    · split <;> simp
    · intro s' hs'
      have : s' = { s with last := code, hi := s.hi + 1 } := by
        revert hs'
        split <;> (simp only [stepState]; intro hs'; exact (Option.some_injective _ hs').symm)
      subst this
      exact ⟨hc, he, h2, h8, hw1, hw2, hov, hlt⟩
  · have heq : s.hi + 1 = s.overflow := by omega
    by_cases hw : s.width = maxWidth
    · rw [trailer_state_full s code heq hw]
      constructor
      · split <;> simp
      · intro s' hs'
        have : s' = { s with last := decoderInvalidCode, hi := s.hi } := by
          revert hs'
          split <;> (simp only [stepState]; intro hs'; exact (Option.some_injective _ hs').symm)
        subst this
        exact ⟨hc, he, h2, h8, hw1, hw2, hov, hhi⟩
    · rw [trailer_state_grow s code heq hw]
      have hlt2 : s.hi + 1 < 2 ^ (s.width + 1) := by
        have : 2 ^ s.width < 2 ^ (s.width + 1) := by
          have := two_pow_succ_eq s.width
          rw [Nat.add_comm] at this
          have hpos : 0 < 2 ^ s.width := Nat.pos_pow_of_pos _ (by norm_num)
          omega
        omega
      constructor
      · split <;> simp
      · intro s' hs'
        have : s' = { s with last := code, hi := s.hi + 1,
                             width := s.width + 1, overflow := 2 ^ (s.width + 1) } := by
          revert hs'
          split <;> (simp only [stepState]; intro hs'; exact (Option.some_injective _ hs').symm)
        subst this
        refine ⟨hc, he, h2, h8, ?_, ?_, rfl, hlt2⟩
        · show 1 + s.litWidth ≤ s.width + 1
          omega
        · show s.width + 1 ≤ maxWidth
          omega

theorem InvLZW_decodeStep (s : LZWReader) (h : InvLZW s) :
    decodeStep s ≠ .panic ∧ ∀ s', stepState (decodeStep s) = some s' → InvLZW s' := by
  rcases hr : readLSB s with ⟨code, e, s1⟩
  have hs1 : InvLZW s1 := by
    have h1 := InvLZW_readLSB s h
    rw [hr] at h1
    exact h1
  have he : s1.eof = s1.clear + 1 := hs1.2.1
  have hce : s1.clear < s1.eof := by omega
  cases e with
  | some e =>
      rw [decodeStep_readErr s code e s1 hr]
      refine ⟨by simp, ?_⟩
      intro s' hs'
      have hx : s' = { s1 with err := some (if e = eofErr then unexpectedEOFErr else e) } := by
        simpa [stepState] using hs'.symm
      subst hx
      exact hs1
  | none =>
      by_cases hlt : code < s1.clear
      · rw [decodeStep_literal s code s1 hr hlt]
        exact InvLZW_trailer _ code (InvLZW_litStep s1 code hs1)
      · by_cases hceq : code = s1.clear
        · rw [decodeStep_clear s code s1 hr hceq]
          refine ⟨by simp, ?_⟩
          intro s' hs'
          have hx : s' = clearStep s1 := by simpa [stepState] using hs'.symm
          subst hx
          exact InvLZW_clearStep s1 hs1
        · by_cases heq : code = s1.eof
          · rw [decodeStep_eofCode s code s1 hr hce heq]
            refine ⟨by simp, ?_⟩
            intro s' hs'
            have hx : s' = { s1 with err := some eofErr } := by
              simpa [stepState] using hs'.symm
            subst hx
            exact hs1
          · by_cases hhi2 : code ≤ s1.hi
            · rw [decodeStep_expand s code s1 hr hce (by omega) hhi2]
              exact InvLZW_trailer _ code (InvLZW_expandStep s1 code hs1)
            · rw [decodeStep_invalid s code s1 hr hlt hceq heq hhi2]
              refine ⟨by simp, ?_⟩
              intro s' hs'
              have hx : s' = { s1 with err := some invalidCodeErr } := by
                simpa [stepState] using hs'.symm
              subst hx
              exact hs1

/-! List helpers for the scratch-buffer reasoning. -/

theorem drop_set_self : ∀ (l : List Nat) (i : Nat) (v : Nat), i < l.length →
    (l.set i v).drop i = v :: l.drop (i + 1)
  | _ :: _, 0, _, _ => rfl
  | a :: l, i + 1, v, h => by
      simpa using drop_set_self l i v (by simpa using h)

theorem take_set_le : ∀ (l : List Nat) (i j v : Nat), j ≤ i →
    (l.set i v).take j = l.take j
  | [], _, _, _, _ => by simp
  | _ :: _, _, 0, _, _ => by simp
  | a :: l, 0, j + 1, v, h => by omega
  | a :: l, i + 1, j + 1, v, h => by
      simp [take_set_le l i j v (by omega)]

theorem take_set_succ : ∀ (l : List Nat) (i v : Nat), i < l.length →
    (l.set i v).take (i + 1) = l.take i ++ [v]
  | _ :: _, 0, _, _ => rfl
  | a :: l, i + 1, v, h => by
      simp [take_set_succ l i v (by simpa using h)]

theorem listBlit_take : ∀ (src dst : List Nat) (o : Nat), o + src.length ≤ dst.length →
    (listBlit dst o src).take (o + src.length) = dst.take o ++ src
  | [], dst, o, _ => by simp [listBlit]
  | v :: vs, dst, o, h => by
      have hlt : o < dst.length := by simp at h; omega
      have ih := listBlit_take vs (dst.set o v) (o + 1)
        (by simp [List.length_set]; simp at h; omega)
      show (listBlit (dst.set o v) (o + 1) vs).take (o + (vs.length + 1)) = dst.take o ++ v :: vs
      have harith : o + (vs.length + 1) = (o + 1) + vs.length := by omega
      rw [harith, ih, take_set_succ dst o v hlt]
      simp

theorem headD_append_left (xs ys : List Nat) (d : Nat) (h : xs ≠ []) :
    (xs ++ ys).headD d = xs.headD d := by
  cases xs with
  | nil => exact absurd rfl h
  | cons a t => rfl

/-! Unfolding equations (one step of each fuel-indexed recursion). -/

theorem expansion_succ (f : Nat) (sfx pfx : List Nat) (cl c : Nat) :
    expansion (f + 1) sfx pfx cl c =
      if c < cl then [c]
      else expansion f sfx pfx cl (pfx.getD c 0) ++ [sfx.getD c 0] := rfl

theorem chainHead_succ (f : Nat) (pfx : List Nat) (cl c : Nat) :
    chainHead (f + 1) pfx cl c =
      if c < cl then c else chainHead f pfx cl (pfx.getD c 0) := rfl

theorem chainWalk_succ (f : Nat) (sfx pfx : List Nat) (cl c i : Nat) (out : List Nat) :
    chainWalk (f + 1) sfx pfx cl c i out =
      if c < cl then (out, i, c)
      else chainWalk f sfx pfx cl (pfx.getD c 0) (i - 1) (out.set i (sfx.getD c 0)) := rfl

/-- Properties of `expansion` and `chainHead` on a strictly decreasing
prefix table: the fuel `c + 1` is exact, the expansion is nonempty with
at most `c + 1` bytes, its head is the literal `chainHead` finds, and
that head is a literal code. -/
theorem expansion_props (sfx pfx : List Nat) (cl C : Nat)
    (Hdec : ∀ j, j ≤ C → cl ≤ j → pfx.getD j 0 < j) :
    ∀ c, c ≤ C →
      (∀ fuel, c < fuel →
        expansion fuel sfx pfx cl c = expansion (c + 1) sfx pfx cl c) ∧
      1 ≤ (expansion (c + 1) sfx pfx cl c).length ∧
      (expansion (c + 1) sfx pfx cl c).length ≤ c + 1 ∧
      (∀ fuel, c < fuel →
        chainHead fuel pfx cl c = (expansion (c + 1) sfx pfx cl c).headD 0) ∧
      (expansion (c + 1) sfx pfx cl c).headD 0 < cl ∧
      (¬ c < cl →
        expansion (c + 1) sfx pfx cl c =
          expansion (pfx.getD c 0 + 1) sfx pfx cl (pfx.getD c 0) ++ [sfx.getD c 0]) := by
  intro c
  induction c using Nat.strong_induction_on with
  | _ c ih =>
    intro hcC
    by_cases hlt : c < cl
    · refine ⟨?_, ?_, ?_, ?_, ?_, ?_⟩
      · intro fuel hf
        obtain ⟨f, rfl⟩ : ∃ f, fuel = f + 1 := ⟨fuel - 1, by omega⟩
        rw [expansion_succ, expansion_succ, if_pos hlt, if_pos hlt]
      · rw [expansion_succ, if_pos hlt]
        simp
      · rw [expansion_succ, if_pos hlt]
        simp
      · intro fuel hf
        obtain ⟨f, rfl⟩ : ∃ f, fuel = f + 1 := ⟨fuel - 1, by omega⟩
        rw [chainHead_succ, expansion_succ, if_pos hlt, if_pos hlt]
        rfl
      · rw [expansion_succ, if_pos hlt]
        simpa using hlt
      · intro h
        exact absurd hlt h
    · have hcl : cl ≤ c := by omega
      have hpc : pfx.getD c 0 < c := Hdec c hcC hcl
      obtain ⟨ihA, ihL1, ihL2, ihH, ihHlt, _⟩ := ih (pfx.getD c 0) hpc (by omega)
      have hEc : expansion (c + 1) sfx pfx cl c =
          expansion (pfx.getD c 0 + 1) sfx pfx cl (pfx.getD c 0) ++ [sfx.getD c 0] := by
        rw [expansion_succ, if_neg hlt, ihA c (by omega)]
      have hne : expansion (pfx.getD c 0 + 1) sfx pfx cl (pfx.getD c 0) ≠ [] := by
        intro hnil
        rw [hnil] at ihL1
        simp at ihL1
      refine ⟨?_, ?_, ?_, ?_, ?_, fun _ => hEc⟩
      · intro fuel hf
        obtain ⟨f, rfl⟩ : ∃ f, fuel = f + 1 := ⟨fuel - 1, by omega⟩
        rw [expansion_succ, if_neg hlt, ihA f (by omega), hEc]
      · rw [hEc]
        simp
      · rw [hEc, List.length_append]
        simp only [List.length_singleton]
        omega
      · intro fuel hf
        obtain ⟨f, rfl⟩ : ∃ f, fuel = f + 1 := ⟨fuel - 1, by omega⟩
        rw [chainHead_succ, if_neg hlt, ihH f (by omega), hEc,
          headD_append_left _ _ _ hne]
      · rw [hEc, headD_append_left _ _ _ hne]
        exact ihHlt

/-- Correctness of the right-to-left suffix-chain walk: after the loop and
the final literal write (`output[i] = c`), the tail of the buffer from the
final index holds exactly the expansion of the starting code, the buffer
below the final index is untouched, and the returned code is the
expansion's head literal. -/
theorem chainWalk_spec (sfx pfx : List Nat) (cl C : Nat)
    (Hdec : ∀ j, j ≤ C → cl ≤ j → pfx.getD j 0 < j) :
    ∀ c, c ≤ C → ∀ fuel, c < fuel → ∀ i out, c ≤ i → i < out.length →
      (chainWalk fuel sfx pfx cl c i out).2.2 =
          (expansion (c + 1) sfx pfx cl c).headD 0 ∧
      (chainWalk fuel sfx pfx cl c i out).2.1 =
          i + 1 - (expansion (c + 1) sfx pfx cl c).length ∧
      (((chainWalk fuel sfx pfx cl c i out).1.set
            (chainWalk fuel sfx pfx cl c i out).2.1
            (chainWalk fuel sfx pfx cl c i out).2.2).drop
          (chainWalk fuel sfx pfx cl c i out).2.1 =
        expansion (c + 1) sfx pfx cl c ++ out.drop (i + 1)) ∧
      (((chainWalk fuel sfx pfx cl c i out).1.set
            (chainWalk fuel sfx pfx cl c i out).2.1
            (chainWalk fuel sfx pfx cl c i out).2.2).take
          (chainWalk fuel sfx pfx cl c i out).2.1 =
        out.take (chainWalk fuel sfx pfx cl c i out).2.1) ∧
      ((chainWalk fuel sfx pfx cl c i out).1.set
          (chainWalk fuel sfx pfx cl c i out).2.1
          (chainWalk fuel sfx pfx cl c i out).2.2).length = out.length := by
  intro c
  induction c using Nat.strong_induction_on with
  | _ c ih =>
    intro hcC fuel hf i out hci hiout
    obtain ⟨f, rfl⟩ : ∃ f, fuel = f + 1 := ⟨fuel - 1, by omega⟩
    by_cases hlt : c < cl
    · rw [chainWalk_succ, if_pos hlt]
      have hE : expansion (c + 1) sfx pfx cl c = [c] := by
        rw [expansion_succ, if_pos hlt]
      rw [hE]
      refine ⟨rfl, by simp, ?_, ?_, ?_⟩
      · simpa using drop_set_self out i c hiout
      · exact take_set_le out i i c (le_refl i)
      · simp
    · rw [chainWalk_succ, if_neg hlt]
      have hcl : cl ≤ c := by omega
      have hpc : pfx.getD c 0 < c := Hdec c hcC hcl
      have hc1 : 1 ≤ c := by omega
      obtain ⟨_, eL1, eL2, _, _, eF⟩ := expansion_props sfx pfx cl C Hdec c hcC
      have hEc := eF hlt
      obtain ⟨_, eL1p, eL2p, _, _, _⟩ :=
        expansion_props sfx pfx cl C Hdec (pfx.getD c 0) (by omega)
      have hihyp := ih (pfx.getD c 0) hpc (by omega) f (by omega) (i - 1)
        (out.set i (sfx.getD c 0)) (by omega)
        (by rw [List.length_set]; omega)
      obtain ⟨wC, wI, wD, wT, wL⟩ := hihyp
      have hlenEc : (expansion (c + 1) sfx pfx cl c).length =
          (expansion (pfx.getD c 0 + 1) sfx pfx cl (pfx.getD c 0)).length + 1 := by
        rw [hEc, List.length_append]
        simp
      have hnep : expansion (pfx.getD c 0 + 1) sfx pfx cl (pfx.getD c 0) ≠ [] := by
        intro hnil
        rw [hnil] at eL1p
        simp at eL1p
      refine ⟨?_, ?_, ?_, ?_, ?_⟩
      · rw [wC, hEc, headD_append_left _ _ _ hnep]
      · rw [wI, hlenEc]
        omega
      · rw [wD]
        have hii : (i - 1) + 1 = i := by omega
        rw [hii, drop_set_self out i (sfx.getD c 0) hiout, hEc, List.append_assoc]
        rfl
      · rw [wT]
        have hwle : (chainWalk f sfx pfx cl (pfx.getD c 0) (i - 1)
            (out.set i (sfx.getD c 0))).2.1 ≤ i := by
          rw [wI]
          omega
        exact take_set_le out i _ (sfx.getD c 0) hwle
      · rw [wL, List.length_set]

/-- Shape of `expandStep` in the `code == hi && last` valid special case,
with the two conditionals resolved. -/
theorem expandStep_hi_shape (s : LZWReader) (code : Nat)
    (hcode : code = s.hi) (hlast : s.last ≠ decoderInvalidCode) :
    expandStep s code =
      (let i0 := s.output.length - 1
       let out1 := s.output.set i0 (chainHead (s.last + 1) s.pfx s.clear s.last)
       let step2 := chainWalk (s.last + 1) s.suffix s.pfx s.clear s.last (i0 - 1) out1
       let out3 := step2.1.set step2.2.1 step2.2.2
       let srcArray := out3.drop step2.2.1
       { s with output := listBlit out3 s.o srcArray,
                o := s.o + srcArray.length,
                suffix := s.suffix.set s.hi step2.2.2,
                pfx := s.pfx.set s.hi s.last }) := by
  simp only [expandStep]
  split
  · split
    · rfl
    · rename_i hcon
      exact absurd ⟨hcode, hlast⟩ hcon
  · rename_i hcon
    exact absurd hlast hcon

/-- Behaviour of the `code == hi` special case of `decode`: the bytes
appended at the write cursor are the expansion of `last` followed by that
expansion's head byte, and `suffix[hi]`/`prefix[hi]` are sealed with the
head byte and `last`. -/
theorem expandStep_hi_spec (s : LZWReader) (code : Nat)
    (hcode : code = s.hi) (hlast : s.last ≠ decoderInvalidCode)
    (Hdec : ∀ j, j ≤ s.last → s.clear ≤ j → s.pfx.getD j 0 < j)
    (Hsz : s.o + s.last + 2 ≤ s.output.length - 1) :
    (expandStep s code).output.take (expandStep s code).o =
        s.output.take s.o ++
          (expansion (s.last + 1) s.suffix s.pfx s.clear s.last ++
           [(expansion (s.last + 1) s.suffix s.pfx s.clear s.last).headD 0]) ∧
    (expandStep s code).o =
        s.o + (expansion (s.last + 1) s.suffix s.pfx s.clear s.last).length + 1 ∧
    (expandStep s code).suffix =
        s.suffix.set s.hi
          ((expansion (s.last + 1) s.suffix s.pfx s.clear s.last).headD 0) ∧
    (expandStep s code).pfx = s.pfx.set s.hi s.last ∧
    (expandStep s code).hi = s.hi ∧ (expandStep s code).last = s.last ∧
    (expandStep s code).err = s.err ∧ (expandStep s code).toRead = s.toRead := by
  obtain ⟨_, eL1, eL2, eH, _, _⟩ :=
    expansion_props s.suffix s.pfx s.clear s.last Hdec s.last (le_refl _)
  have hhead : chainHead (s.last + 1) s.pfx s.clear s.last =
      (expansion (s.last + 1) s.suffix s.pfx s.clear s.last).headD 0 :=
    eH (s.last + 1) (by omega)
  rw [expandStep_hi_shape s code hcode hlast]
  dsimp only
  rw [hhead]
  set E := expansion (s.last + 1) s.suffix s.pfx s.clear s.last with hE
  set i0 := s.output.length - 1 with hi0
  have hi2 : s.o + s.last + 2 ≤ i0 := Hsz
  have hlenpos : i0 + 1 = s.output.length := by omega
  set out1 := s.output.set i0 (E.headD 0) with hout1
  have hout1len : out1.length = s.output.length := by
    rw [hout1, List.length_set]
  obtain ⟨wC, wI, wD, wT, wL⟩ :=
    chainWalk_spec s.suffix s.pfx s.clear s.last Hdec s.last (le_refl _)
      (s.last + 1) (by omega) (i0 - 1) out1 (by omega) (by omega)
  rw [← hE] at wC wI wD
  set w := chainWalk (s.last + 1) s.suffix s.pfx s.clear s.last (i0 - 1) out1 with hw
  set out3 := w.1.set w.2.1 w.2.2 with hout3
  have hi1 : (i0 - 1) + 1 = i0 := by omega
  rw [hi1] at wD wI
  have hdrop1 : out1.drop i0 = [E.headD 0] := by
    rw [hout1, drop_set_self s.output i0 (E.headD 0) (by omega), hlenpos,
      List.drop_length]
  have hsrc : out3.drop w.2.1 = E ++ [E.headD 0] := by
    rw [wD, hdrop1]
  have hsrclen : (out3.drop w.2.1).length = E.length + 1 := by
    rw [hsrc, List.length_append, List.length_singleton]
  have hout3len : out3.length = s.output.length := by
    rw [wL, hout1len]
  have hsoW : s.o ≤ w.2.1 := by
    rw [wI]
    omega
  have htake3 : out3.take s.o = s.output.take s.o := by
    have h8a : (out3.take w.2.1).take s.o = out3.take s.o := by
      rw [List.take_take, Nat.min_eq_left hsoW]
    rw [← h8a, wT, List.take_take, Nat.min_eq_left hsoW, hout1,
      take_set_le s.output i0 s.o (E.headD 0) (by omega)]
  refine ⟨?_, ?_, ?_, rfl, rfl, rfl, rfl, rfl⟩
  · rw [listBlit_take (out3.drop w.2.1) out3 s.o (by omega), htake3, hsrc]
  · rw [hsrclen]
    omega
  · rw [wC]

/-! Claim theorems. -/

/-- C1 (amended): processing a clear code resets the code width to
`litWidth + 1`, resets `hi` to `eof` (the code sets `hi = eof`, not
`eof + 1`), sets `overflow` to `2 ^ width`, invalidates `last`, emits no
bytes and skips the trailer bookkeeping for that iteration (the loop
continues directly), and the decoder successfully decodes a
literal-range code immediately after. -/
theorem C1_clear_resets (s : LZWReader) (code : Nat) (s₁ : LZWReader)
    (hread : readLSB s = (code, none, s₁)) (hc : code = s₁.clear) :
    decodeStep s = .next (clearStep s₁) ∧
    (clearStep s₁).width = 1 + s₁.litWidth ∧
    (clearStep s₁).hi = s₁.eof ∧
    (clearStep s₁).overflow = 2 ^ (1 + s₁.litWidth) ∧
    (clearStep s₁).last = decoderInvalidCode ∧
    (clearStep s₁).o = s₁.o ∧
    (clearStep s₁).output = s₁.output ∧
    (clearStep s₁).toRead = s₁.toRead ∧
    (∀ code₂ s₂, readLSB (clearStep s₁) = (code₂, none, s₂) → code₂ < s₂.clear →
      decodeStep (clearStep s₁) =
        trailer { s₂ with output := s₂.output.set s₂.o code₂, o := s₂.o + 1 } code₂) := by
  refine ⟨decodeStep_clear s code s₁ hread hc, rfl, rfl, rfl, rfl, rfl, rfl, rfl, ?_⟩
  intro code₂ s₂ hread₂ hlit
  obtain ⟨b, n, r, hs2⟩ := readLSB_state (clearStep s₁)
  rw [hread₂] at hs2
  have hlast2 : s₂.last = decoderInvalidCode := by
    have h2 := congrArg LZWReader.last hs2
    simpa [clearStep] using h2
  rw [decodeStep_literal (clearStep s₁) code₂ s₂ hread₂ hlit]
  have hls : litStep s₂ code₂ = { s₂ with output := s₂.output.set s₂.o code₂, o := s₂.o + 1 } := by
    simp [litStep, hlast2]
  rw [hls]

/-- C1 counterexample: on a fresh decoder with `litWidth = 2` reading the
clear code 4, the state after the clear-code branch has `hi = 5 = eof`,
which differs from `eof + 1 = 6` as the claim states. -/
theorem C1_counterexample :
    (stepState (decodeStep (initLZWReader ⟨[4], eofErr⟩ 2))).map
        (fun s' => (s'.hi, s'.eof)) = some (5, 5) ∧ (5 : Nat) ≠ 5 + 1 := by
  constructor
  · rfl
  · decide

/-- Witness for C1: concrete application of the clear-code reset theorem
on a fresh `litWidth = 2` decoder whose next code is the clear code 4. -/
theorem C1_witness :
    decodeStep (initLZWReader ⟨[4], eofErr⟩ 2) =
        .next (clearStep ((readLSB (initLZWReader ⟨[4], eofErr⟩ 2)).2.2)) ∧
    (clearStep ((readLSB (initLZWReader ⟨[4], eofErr⟩ 2)).2.2)).hi =
        ((readLSB (initLZWReader ⟨[4], eofErr⟩ 2)).2.2).eof := by
  have h := C1_clear_resets (initLZWReader ⟨[4], eofErr⟩ 2) 4
      ((readLSB (initLZWReader ⟨[4], eofErr⟩ 2)).2.2) rfl rfl
  exact ⟨h.1, h.2.2.1⟩

/-- C10: immediately after construction `hi = eof`, after a clear code
`hi = eof` again, and in a state with `hi = eof` any extracted code in the
dictionary range (strictly above `eof`) is rejected with the fatal
invalid-code error. -/
theorem C10_first_code_after_reset :
    (∀ src lw s0, newLZWReader src lw = some s0 → s0.hi = s0.eof) ∧
    (∀ s code s₁, readLSB s = (code, none, s₁) → code = s₁.clear →
        decodeStep s = .next (clearStep s₁) ∧ (clearStep s₁).hi = (clearStep s₁).eof) ∧
    (∀ s code s₁, readLSB s = (code, none, s₁) → s₁.hi = s₁.eof → s₁.clear < s₁.eof →
        s₁.eof < code → decodeStep s = .brk { s₁ with err := some invalidCodeErr }) := by
  refine ⟨?_, ?_, ?_⟩
  · intro src lw s0 h
    unfold newLZWReader at h
    split at h
    · exact absurd h (by simp)
    · have h2 := Option.some.inj h
      rw [← h2]
      rfl
  · intro s code s₁ hread hc
    exact ⟨decodeStep_clear s code s₁ hread hc, rfl⟩
  · intro s code s₁ hread hhe hce hlo
    exact decodeStep_invalid s code s₁ hread (by omega) (by omega) (by omega) (by omega)

/-- Witness for C10: fresh `litWidth = 2` decoder (where `hi = eof = 5`)
reading code 6 stores the invalid-code error. -/
theorem C10_witness :
    (initLZWReader ⟨[6], eofErr⟩ 2).hi = (initLZWReader ⟨[6], eofErr⟩ 2).eof ∧
    decodeStep (initLZWReader ⟨[6], eofErr⟩ 2) =
      .brk { (readLSB (initLZWReader ⟨[6], eofErr⟩ 2)).2.2 with err := some invalidCodeErr } := by
  constructor
  · exact (C10_first_code_after_reset.1 ⟨[6], eofErr⟩ 2 (initLZWReader ⟨[6], eofErr⟩ 2) rfl).symm ▸ rfl
  · exact C10_first_code_after_reset.2.2 (initLZWReader ⟨[6], eofErr⟩ 2) 6
      ((readLSB (initLZWReader ⟨[6], eofErr⟩ 2)).2.2) rfl rfl (by decide) (by decide)

/-- C5: a code strictly greater than `hi` stores the fatal invalid-code
error and breaks the decode loop; a read with pending decoded bytes
returns them (regardless of the stored error), so bytes decoded before
the invalid code remain retrievable; and once the pending queue is
drained every read returns the stored invalid-code error and produces no
bytes. -/
theorem C5_invalid_code (s : LZWReader) (code : Nat) (s₁ : LZWReader) :
    (readLSB s = (code, none, s₁) → s₁.clear < s₁.eof → s₁.eof ≤ s₁.hi →
        s₁.hi < code → decodeStep s = .brk { s₁ with err := some invalidCodeErr }) ∧
    (∀ blen rf df, s.toRead ≠ [] →
        ReadLZW (rf + 1) df s blen =
          some (s.toRead.take (min blen s.toRead.length), none,
                { s with toRead := s.toRead.drop (min blen s.toRead.length) })) ∧
    (∀ blen rf df, s.toRead = [] → s.err = some invalidCodeErr →
        ReadLZW (rf + 1) df s blen = some ([], some invalidCodeErr, s)) := by
  refine ⟨?_, ?_, ?_⟩
  · intro hread hce heh hhi
    exact decodeStep_invalid s code s₁ hread (by omega) (by omega) (by omega) (by omega)
  · intro blen rf df h
    exact ReadLZW_pending rf df s blen h
  · intro blen rf df ht he
    exact ReadLZW_stickyErr rf df s blen invalidCodeErr ht he

/-- Witness for C5: a `litWidth = 3` decoder reading code 12 (with
`hi = 9`) stores the invalid-code error; a state holding that error with
pending bytes `[7, 8]` still returns `[7]` to a 1-byte read; once drained
the error is returned with no bytes. -/
theorem C5_witness :
    decodeStep (initLZWReader ⟨[12], eofErr⟩ 3) =
      .brk { (readLSB (initLZWReader ⟨[12], eofErr⟩ 3)).2.2 with err := some invalidCodeErr } ∧
    ReadLZW 2 1 { initLZWReader ⟨[], eofErr⟩ 2 with
                    toRead := [7, 8], err := some invalidCodeErr } 1 =
      some ([7, 8].take (min 1 ([7, 8] : List Nat).length), none,
            { initLZWReader ⟨[], eofErr⟩ 2 with
                toRead := ([7, 8] : List Nat).drop (min 1 ([7, 8] : List Nat).length),
                err := some invalidCodeErr }) ∧
    ReadLZW 2 1 { initLZWReader ⟨[], eofErr⟩ 2 with err := some invalidCodeErr } 1 =
      some ([], some invalidCodeErr,
            { initLZWReader ⟨[], eofErr⟩ 2 with err := some invalidCodeErr }) := by
  refine ⟨?_, ?_, ?_⟩
  · exact (C5_invalid_code (initLZWReader ⟨[12], eofErr⟩ 3) 12
      ((readLSB (initLZWReader ⟨[12], eofErr⟩ 3)).2.2)).1 rfl (by decide) (by decide) (by decide)
  · exact (C5_invalid_code { initLZWReader ⟨[], eofErr⟩ 2 with
        toRead := [7, 8], err := some invalidCodeErr } 0
        { initLZWReader ⟨[], eofErr⟩ 2 with
            toRead := [7, 8], err := some invalidCodeErr }).2.1 1 1 1 (by decide)
  · exact (C5_invalid_code { initLZWReader ⟨[], eofErr⟩ 2 with err := some invalidCodeErr } 0
        { initLZWReader ⟨[], eofErr⟩ 2 with err := some invalidCodeErr }).2.2 1 1 1 rfl rfl

/-- C6: when the bit extractor reports a source error the decode loop
stores the unexpected-EOF condition in place of a plain EOF and stores
any other source error unchanged; the extractor can only report an error
while it is still gathering bits (`nBits < width`), never once a full
code is buffered. -/
theorem C6_truncated_stream (s : LZWReader) :
    (∀ code e s₁, readLSB s = (code, some e, s₁) →
        decodeStep s =
          .brk { s₁ with err := some (if e = eofErr then unexpectedEOFErr else e) }) ∧
    (s.width ≤ s.nBits → (readLSB s).2.1 = none) := by
  refine ⟨?_, ?_⟩
  · intro code e s₁ hread
    exact decodeStep_readErr s code e s₁ hread
  · intro h
    exact readLSB_noGather s h

/-- Witness for C6: an exhausted clean source mid-code yields the
unexpected-EOF error, a failing source propagates its message unchanged,
and a state already holding a full code reports no source error. -/
theorem C6_witness :
    decodeStep (initLZWReader ⟨[], eofErr⟩ 2) =
      .brk { (readLSB (initLZWReader ⟨[], eofErr⟩ 2)).2.2 with
               err := some (if eofErr = eofErr then unexpectedEOFErr else eofErr) } ∧
    decodeStep (initLZWReader ⟨[], "disk failure"⟩ 2) =
      .brk { (readLSB (initLZWReader ⟨[], "disk failure"⟩ 2)).2.2 with
               err := some (if "disk failure" = eofErr
                            then unexpectedEOFErr else "disk failure") } ∧
    (readLSB { initLZWReader ⟨[], eofErr⟩ 2 with nBits := 16, bits := 6 }).2.1 = none := by
  refine ⟨?_, ?_, ?_⟩
  · exact (C6_truncated_stream (initLZWReader ⟨[], eofErr⟩ 2)).1 0 eofErr
      ((readLSB (initLZWReader ⟨[], eofErr⟩ 2)).2.2) rfl
  · exact (C6_truncated_stream (initLZWReader ⟨[], "disk failure"⟩ 2)).1 0 "disk failure"
      ((readLSB (initLZWReader ⟨[], "disk failure"⟩ 2)).2.2) rfl
  · exact (C6_truncated_stream { initLZWReader ⟨[], eofErr⟩ 2 with
      nBits := 16, bits := 6 }).2 (by decide)

/-- C7: once a terminal condition is stored and the pending output queue
is drained, every read returns zero bytes and the same stored condition,
and leaves the decoder state completely unchanged — in particular the
decode loop is not re-entered (the returned state is the input state
itself, with its source untouched). -/
theorem C7_sticky_terminal (s : LZWReader) (e : String)
    (he : s.err = some e) (ht : s.toRead = []) :
    ∀ blen rf df, ReadLZW (rf + 1) df s blen = some ([], some e, s) := by
  intro blen rf df
  exact ReadLZW_stickyErr rf df s blen e ht he

/-- Witness for C7: a drained decoder holding the EOF condition returns
it unchanged on a subsequent read. -/
theorem C7_witness :
    ReadLZW 3 5 { initLZWReader ⟨[9, 9], eofErr⟩ 2 with err := some eofErr } 4 =
      some ([], some eofErr, { initLZWReader ⟨[9, 9], eofErr⟩ 2 with err := some eofErr }) :=
  C7_sticky_terminal { initLZWReader ⟨[9, 9], eofErr⟩ 2 with err := some eofErr }
    eofErr rfl rfl 4 2 5

/-- C9: `Close()` returns `null` in every state and on repeated calls; it
unconditionally overwrites any stored condition (including clean EOF)
with the fixed closed error; it leaves the pending decoded-output queue
intact, so bytes flushed before the close are still returned by
subsequent reads, after which the closed error surfaces. -/
theorem C9_close (s : LZWReader) :
    (CloseLZW s).1 = none ∧
    (CloseLZW s).2 = { s with err := some closedErr } ∧
    (CloseLZW (CloseLZW s).2).1 = none ∧
    (CloseLZW (CloseLZW s).2).2 = { s with err := some closedErr } ∧
    (CloseLZW s).2.toRead = s.toRead ∧
    (∀ blen rf df, s.toRead ≠ [] →
        ReadLZW (rf + 1) df (CloseLZW s).2 blen =
          some (s.toRead.take (min blen s.toRead.length), none,
                { s with err := some closedErr,
                         toRead := s.toRead.drop (min blen s.toRead.length) })) ∧
    (∀ blen rf df, s.toRead = [] →
        ReadLZW (rf + 1) df (CloseLZW s).2 blen =
          some ([], some closedErr, (CloseLZW s).2)) := by
  refine ⟨rfl, rfl, rfl, rfl, rfl, ?_, ?_⟩
  · intro blen rf df h
    exact ReadLZW_pending rf df { s with err := some closedErr } blen h
  · intro blen rf df h
    exact ReadLZW_stickyErr rf df { s with err := some closedErr } blen closedErr h rfl

/-- Witness for C9: closing a decoder that already holds the clean EOF
condition and one pending byte: close returns `null`, the error becomes
the closed error, and the pending byte is still returned before the
closed error surfaces. -/
theorem C9_witness :
    (CloseLZW { initLZWReader ⟨[], eofErr⟩ 2 with toRead := [7], err := some eofErr }).1 =
        none ∧
    ReadLZW 2 1
        (CloseLZW { initLZWReader ⟨[], eofErr⟩ 2 with
                      toRead := [7], err := some eofErr }).2 2 =
      some (([7] : List Nat).take (min 2 ([7] : List Nat).length), none,
            { initLZWReader ⟨[], eofErr⟩ 2 with
                err := some closedErr,
                toRead := ([7] : List Nat).drop (min 2 ([7] : List Nat).length) }) ∧
    ReadLZW 2 1 { initLZWReader ⟨[], eofErr⟩ 2 with err := some closedErr } 2 =
      some ([], some closedErr,
            { initLZWReader ⟨[], eofErr⟩ 2 with err := some closedErr }) := by
  refine ⟨?_, ?_, ?_⟩
  · exact (C9_close { initLZWReader ⟨[], eofErr⟩ 2 with
      toRead := [7], err := some eofErr }).1
  · exact (C9_close { initLZWReader ⟨[], eofErr⟩ 2 with
      toRead := [7], err := some eofErr }).2.2.2.2.2.1 2 1 1 (by decide)
  · exact (C9_close { initLZWReader ⟨[], eofErr⟩ 2 with
      err := some closedErr }).2.2.2.2.2.2 2 1 1 rfl

/-- C8: a stream whose code sequence is only the EOF control code decodes
to zero bytes and the pure end-of-stream condition (`"EOF"`, not an
error) on the first read, shown concretely for `litWidth = 2` (byte
`0x05`) and `litWidth = 8` (bytes `0x01 0x01`), together with the general
EOF-code branch behaviour of the decode loop. -/
theorem C8_eof_only_stream :
    (ReadLZW 2 2 (initLZWReader ⟨[5], eofErr⟩ 2) 10).map (fun r => (r.1, r.2.1)) =
        some ([], some eofErr) ∧
    (ReadLZW 2 2 (initLZWReader ⟨[1, 1], eofErr⟩ 8) 10).map (fun r => (r.1, r.2.1)) =
        some ([], some eofErr) ∧
    (∀ s code s₁, readLSB s = (code, none, s₁) → s₁.clear < s₁.eof → code = s₁.eof →
        decodeStep s = .brk { s₁ with err := some eofErr }) := by
  refine ⟨rfl, rfl, ?_⟩
  intro s code s₁ hread hce hc
  exact decodeStep_eofCode s code s₁ hread hce hc

/-- C2: at the failing input (MSB order, `width = 3`, first source byte
`0x80`) the JS `readMSB` returns the negative code `-4` because
`bits >> (32 - width)` sign-extends the int32 accumulator, not the value
4 in `[0, 2 ^ width)` that the high three bits of the 32-bit window hold
(as the uint32 semantics of the Go original would return). -/
theorem C2_readMSB_sign_bug :
    readMSB ⟨⟨[0x80], eofErr⟩, 0, 0, 3⟩ = (-4, none, ⟨⟨[], eofErr⟩, 0, 5, 3⟩) ∧
    readMSBSpecCode ⟨⟨[0x80], eofErr⟩, 0, 0, 3⟩ = 4 ∧
    (readMSB ⟨⟨[0x80], eofErr⟩, 0, 0, 3⟩).1 < 0 := by
  refine ⟨?_, ?_, ?_⟩ <;> decide

/-- C4: the trailer sets `last = code` and increments `hi`; when `hi`
reaches `overflow` it either grows the width (`width < maxWidth`,
`overflow = 2 ^ width`) or, at `maxWidth`, invalidates `last` and rolls
the `hi` increment back; under the decoder invariant the
`hi > overflow` panic branch is unreachable, and the invariant
`hi < overflow` holds again after every complete decode-loop iteration
(it holds at construction and is preserved by every step). -/
theorem C4_invariant :
    (∀ src lw s0, newLZWReader src lw = some s0 → InvLZW s0) ∧
    (∀ s code, s.hi + 1 < s.overflow →
        trailer s code = (if s.o ≥ flushBuffer
          then StepRes.brk { s with last := code, hi := s.hi + 1 }
          else StepRes.next { s with last := code, hi := s.hi + 1 })) ∧
    (∀ s code, s.hi + 1 = s.overflow → s.width ≠ maxWidth →
        trailer s code = (if s.o ≥ flushBuffer
          then StepRes.brk { s with last := code, hi := s.hi + 1,
                                    width := s.width + 1, overflow := 2 ^ (s.width + 1) }
          else StepRes.next { s with last := code, hi := s.hi + 1,
                                     width := s.width + 1, overflow := 2 ^ (s.width + 1) })) ∧
    (∀ s code, s.hi + 1 = s.overflow → s.width = maxWidth →
        trailer s code = (if s.o ≥ flushBuffer
          then StepRes.brk { s with last := decoderInvalidCode, hi := s.hi }
          else StepRes.next { s with last := decoderInvalidCode, hi := s.hi })) ∧
    (∀ s code, InvLZW s → trailer s code ≠ .panic) ∧
    (∀ s, InvLZW s → decodeStep s ≠ .panic) ∧
    (∀ s s', InvLZW s → stepState (decodeStep s) = some s' →
        InvLZW s' ∧ s'.hi < s'.overflow) := by
  refine ⟨?_, ?_, ?_, ?_, ?_, ?_, ?_⟩
  · intro src lw s0 h
    unfold newLZWReader at h
    split at h
    · exact absurd h (by simp)
    · rename_i hcond
      rw [← Option.some.inj h]
      exact InvLZW_init src lw (by omega) (by omega)
  · intro s code h
    exact trailer_state_lt s code h
  · intro s code he hw
    exact trailer_state_grow s code he hw
  · intro s code he hw
    exact trailer_state_full s code he hw
  · intro s code h
    exact (InvLZW_trailer s code h).1
  · intro s h
    exact (InvLZW_decodeStep s h).1
  · intro s s' h hs'
    have h2 := (InvLZW_decodeStep s h).2 s' hs'
    exact ⟨h2, h2.2.2.2.2.2.2.2⟩

/-- Witness for C4: the fresh `litWidth = 2` decoder satisfies the
invariant, its first decode step cannot panic, and the state after that
step satisfies `hi < overflow`. -/
theorem C4_witness :
    InvLZW (initLZWReader ⟨[5], eofErr⟩ 2) ∧
    decodeStep (initLZWReader ⟨[5], eofErr⟩ 2) ≠ .panic ∧
    ({ (readLSB (initLZWReader ⟨[5], eofErr⟩ 2)).2.2 with err := some eofErr }).hi <
      ({ (readLSB (initLZWReader ⟨[5], eofErr⟩ 2)).2.2 with err := some eofErr }).overflow := by
  have hInv : InvLZW (initLZWReader ⟨[5], eofErr⟩ 2) := by decide
  refine ⟨hInv, C4_invariant.2.2.2.2.2.1 (initLZWReader ⟨[5], eofErr⟩ 2) hInv, ?_⟩
  exact (C4_invariant.2.2.2.2.2.2 (initLZWReader ⟨[5], eofErr⟩ 2)
    { (readLSB (initLZWReader ⟨[5], eofErr⟩ 2)).2.2 with err := some eofErr } hInv rfl).2

/-- C3: in a decode iteration whose extracted code equals `hi` with a
valid `last`, the decode loop runs the expansion branch, the bytes
appended at the write cursor are exactly the expansion of `last`
followed by the head byte of that same expansion, and afterwards
`suffix[hi]` holds the expansion's first byte and `prefix[hi]` holds
`last`. -/
theorem C3_code_eq_hi (s : LZWReader) (code : Nat) (s₁ : LZWReader)
    (hread : readLSB s = (code, none, s₁))
    (hce : s₁.clear < s₁.eof) (hlo : s₁.eof < code)
    (hcode : code = s₁.hi) (hlast : s₁.last ≠ decoderInvalidCode)
    (Hdec : ∀ j, j ≤ s₁.last → s₁.clear ≤ j → s₁.pfx.getD j 0 < j)
    (Hsz : s₁.o + s₁.last + 2 ≤ s₁.output.length - 1) :
    decodeStep s = trailer (expandStep s₁ code) code ∧
    (expandStep s₁ code).output.take (expandStep s₁ code).o =
        s₁.output.take s₁.o ++
          (expansion (s₁.last + 1) s₁.suffix s₁.pfx s₁.clear s₁.last ++
           [(expansion (s₁.last + 1) s₁.suffix s₁.pfx s₁.clear s₁.last).headD 0]) ∧
    (expandStep s₁ code).o =
        s₁.o + (expansion (s₁.last + 1) s₁.suffix s₁.pfx s₁.clear s₁.last).length + 1 ∧
    (expandStep s₁ code).suffix =
        s₁.suffix.set s₁.hi
          ((expansion (s₁.last + 1) s₁.suffix s₁.pfx s₁.clear s₁.last).headD 0) ∧
    (expandStep s₁ code).pfx = s₁.pfx.set s₁.hi s₁.last := by
  obtain ⟨h1, h2, h3, h4, _, _, _, _⟩ := expandStep_hi_spec s₁ code hcode hlast Hdec Hsz
  exact ⟨decodeStep_expand s code s₁ hread hce hlo (le_of_eq hcode), h1, h2, h3, h4⟩

/-- Witness for C3: a `litWidth = 2` decoder state with `hi = 6`,
`last = 1` and a buffered code 6 (the self-referential `code == hi`
case). -/
theorem C3_witness :
    decodeStep { initLZWReader ⟨[], eofErr⟩ 2 with
        bits := 6, nBits := 8, hi := 6, last := 1 } =
      trailer (expandStep { initLZWReader ⟨[], eofErr⟩ 2 with
        bits := 0, nBits := 5, hi := 6, last := 1 } 6) 6 ∧
    (expandStep { initLZWReader ⟨[], eofErr⟩ 2 with
        bits := 0, nBits := 5, hi := 6, last := 1 } 6).o =
      ({ initLZWReader ⟨[], eofErr⟩ 2 with
          bits := 0, nBits := 5, hi := 6, last := 1 } : LZWReader).o +
        (expansion (1 + 1)
          ({ initLZWReader ⟨[], eofErr⟩ 2 with
              bits := 0, nBits := 5, hi := 6, last := 1 } : LZWReader).suffix
          ({ initLZWReader ⟨[], eofErr⟩ 2 with
              bits := 0, nBits := 5, hi := 6, last := 1 } : LZWReader).pfx
          (2 ^ 2) 1).length + 1 := by
  have h := C3_code_eq_hi
    { initLZWReader ⟨[], eofErr⟩ 2 with bits := 6, nBits := 8, hi := 6, last := 1 } 6
    { initLZWReader ⟨[], eofErr⟩ 2 with bits := 0, nBits := 5, hi := 6, last := 1 }
    rfl (by decide) (by decide) (by decide) (by decide) (by decide)
    (by rw [show ({ initLZWReader ⟨[], eofErr⟩ 2 with
          bits := 0, nBits := 5, hi := 6, last := 1 } : LZWReader).output =
            List.replicate (2 * 2 ^ maxWidth) 0 from rfl, List.length_replicate]
        norm_num [maxWidth]
        decide)
  exact ⟨h.1, h.2.2.1⟩

/-- Witness for C8: a `litWidth = 3` decoder whose first code is the EOF
code 9 takes the clean-EOF branch of the decode loop. -/
theorem C8_witness :
    decodeStep (initLZWReader ⟨[9], eofErr⟩ 3) =
      .brk { (readLSB (initLZWReader ⟨[9], eofErr⟩ 3)).2.2 with err := some eofErr } :=
  C8_eof_only_stream.2.2 (initLZWReader ⟨[9], eofErr⟩ 3) 9
    ((readLSB (initLZWReader ⟨[9], eofErr⟩ 3)).2.2) rfl (by decide) (by decide)
